import Mathlib

/-
Verification of the section-graph construction in `latexSectionsGraph.py`.

The parsed LaTeX tree (produced by `LatexWalker`) is embedded as a small
inductive type: a command node carries its name and the string extracted
from its first argument (`node.nodeargs[0].nodelist[0].chars`); an
environment node carries its name and its immediate child list; every
other node kind is opaque text. The two traversal passes `add_nodes` and
`add_edges`, the pruning step `remove_lightly_connected_nodes`, and the
path check `verify_tex_path` are translated function by function.
-/

namespace LatexSectionsGraph

/-- A node of the parsed LaTeX tree, as the Python code observes it. -/
inductive LNode where
  | cmd (name : String) (arg : String)
  | env (name : String) (children : List LNode)
  | text (s : String)

/-- Python truthiness of the `prev_*` slots: they hold `None` or a string,
and `if x:` succeeds exactly when the slot is a non-empty string. -/
def truthy : Option String → Bool
  | none => false
  | some s => decide (s ≠ "")

/-- The traversal state `prev_section`, `prev_subsection`, `prev_subsubsection`,
all initialised to `None` at the start of each pass. -/
structure Ctx where
  prevSection : Option String
  prevSubsection : Option String
  prevSubsubsection : Option String
deriving DecidableEq, Repr

def Ctx.init : Ctx := ⟨none, none, none⟩

/-- The constructor flags `use_subsubsection` and `use_subsection`. -/
structure Cfg where
  useSubsubsection : Bool
  useSubsection : Bool
deriving DecidableEq, Repr

/-- `label_section_map` as a sequence of insertions; the most recent binding
for a key comes first, so `mapLookup` realises Python dict overwrite. -/
abbrev LabelMap := List (String × String)

/-- Lookup in `label_section_map`: the most recently written binding wins. -/
def mapLookup : LabelMap → String → Option String
  | [], _ => none
  | (k, v) :: rest, l => if l = k then some v else mapLookup rest l

/-- `networkx.DiGraph`: a node set and a set of directed edges
(duplicate `add_edge` calls collapse, no multi-edges). -/
structure DiGraph where
  nodes : Finset String
  edges : Finset (String × String)
deriving DecidableEq

def DiGraph.empty : DiGraph := ⟨∅, ∅⟩

/-- `graph.add_edge(u, v)`: inserts both endpoints and the edge. -/
def addEdge (g : DiGraph) (u v : String) : DiGraph :=
  ⟨insert u (insert v g.nodes), insert (u, v) g.edges⟩

/-- `graph.degree()` for one node of a `DiGraph`: out-degree plus in-degree. -/
def degree (g : DiGraph) (n : String) : Nat :=
  (g.edges.filter (fun e => e.1 = n)).card + (g.edges.filter (fun e => e.2 = n)).card

/-- `remove_lightly_connected_nodes`: collect every node of degree below the
threshold, then remove them (and, as `remove_nodes_from` does, every edge
incident to a removed node) in one batch. -/
def remove_lightly_connected_nodes (g : DiGraph) (threshold : Int) : DiGraph :=
  let toRemove := g.nodes.filter (fun n => (degree g n : Int) < threshold)
  ⟨g.nodes \ toRemove, g.edges.filter (fun e => e.1 ∉ toRemove ∧ e.2 ∉ toRemove)⟩

/-- The `label` handler of `add_nodes`: record the label under the innermost
truthy slot whose granularity flag allows it (`elif` chain of the source). -/
def recordLabel (cfg : Cfg) (c : Ctx) (m : LabelMap) (l : String) : LabelMap :=
  if truthy c.prevSubsubsection && cfg.useSubsubsection then
    (l, c.prevSubsubsection.getD "") :: m
  else if truthy c.prevSubsection && cfg.useSubsection then
    (l, c.prevSubsection.getD "") :: m
  else if truthy c.prevSection then
    (l, c.prevSection.getD "") :: m
  else m

/-- The inner scan of `add_nodes` over the children of an `equation` or
`align` environment: record every `label` child with the outer context. -/
def scanMathLabels (cfg : Cfg) (c : Ctx) : LabelMap → List LNode → LabelMap
  | m, [] => m
  | m, .cmd name arg :: rest =>
      scanMathLabels cfg c (if name = "label" then recordLabel cfg c m arg else m) rest
  | m, _ :: rest => scanMathLabels cfg c m rest

/-- One body node of the `add_nodes` pass: hierarchy commands update the
context unconditionally, `label` records, math environments are scanned. -/
def labelStep (cfg : Cfg) (st : Ctx × LabelMap) (n : LNode) : Ctx × LabelMap :=
  match n with
  | .env name children =>
      if name = "equation" ∨ name = "align" then
        (st.1, scanMathLabels cfg st.1 st.2 children)
      else st
  | .cmd name arg =>
      if name = "section" then
        (⟨some arg, none, none⟩, st.2)
      else if name = "subsection" then
        ({ st.1 with prevSubsection := some arg, prevSubsubsection := none }, st.2)
      else if name = "subsubsection" then
        ({ st.1 with prevSubsubsection := some arg }, st.2)
      else if name = "label" then
        (st.1, recordLabel cfg st.1 st.2 arg)
      else st
  | .text _ => st

def labelBody (cfg : Cfg) (st : Ctx × LabelMap) (body : List LNode) : Ctx × LabelMap :=
  body.foldl (labelStep cfg) st

/-- The outer loop of `add_nodes`: only the children of a `document`
environment are traversed; state persists across top-level nodes. -/
def labelTopStep (cfg : Cfg) (st : Ctx × LabelMap) (n : LNode) : Ctx × LabelMap :=
  match n with
  | .env name body => if name = "document" then labelBody cfg st body else st
  | _ => st

/-- `add_nodes`: the label-resolution pass, returning `label_section_map`. -/
def add_nodes (cfg : Cfg) (top : List LNode) : LabelMap :=
  (top.foldl (labelTopStep cfg) (Ctx.init, [])).2

/-- The six reference command names recognised by `add_edges`. -/
def refNames : List String := ["Cref", "cref", "ref", "eqref", "autoref", "nameref"]

/-- Context transitions of `add_edges`: `subsection` and `subsubsection`
updates are gated by the granularity flags, `section` is unconditional. -/
def edgeCtxStep (cfg : Cfg) (c : Ctx) (name arg : String) : Ctx :=
  if name = "section" then
    ⟨some arg, none, none⟩
  else if name = "subsection" ∧ cfg.useSubsection then
    { c with prevSubsection := some arg, prevSubsubsection := none }
  else if name = "subsubsection" ∧ cfg.useSubsubsection then
    { c with prevSubsubsection := some arg }
  else c

/-- The `elif` resolution chain of `add_edges`: the innermost truthy slot. -/
def resolveCtx (c : Ctx) : Option String :=
  if truthy c.prevSubsubsection then c.prevSubsubsection
  else if truthy c.prevSubsection then c.prevSubsection
  else if truthy c.prevSection then c.prevSection
  else none

/-- One body node of the `add_edges` pass. Only command nodes are examined:
for a reference command whose identifier is in the map, an edge from the
mapped unit to the resolved current unit is added unless they coincide. -/
def edgeStep (cfg : Cfg) (m : LabelMap) (st : Ctx × DiGraph) (n : LNode) : Ctx × DiGraph :=
  match n with
  | .cmd name arg =>
      let c := edgeCtxStep cfg st.1 name arg
      if name ∈ refNames then
        match mapLookup m arg with
        | none => (c, st.2)
        | some target =>
            match resolveCtx c with
            | none => (c, st.2)
            | some src => if src ≠ target then (c, addEdge st.2 target src) else (c, st.2)
      else (c, st.2)
  | _ => st

def edgeBody (cfg : Cfg) (m : LabelMap) (st : Ctx × DiGraph) (body : List LNode) : Ctx × DiGraph :=
  body.foldl (edgeStep cfg m) st

/-- The outer loop of `add_edges`: only `document` children are traversed. -/
def edgeTopStep (cfg : Cfg) (m : LabelMap) (st : Ctx × DiGraph) (n : LNode) : Ctx × DiGraph :=
  match n with
  | .env name body => if name = "document" then edgeBody cfg m st body else st
  | _ => st

/-- `add_edges`: the reference-linking pass, growing the graph `g`. -/
def add_edges (cfg : Cfg) (m : LabelMap) (g : DiGraph) (top : List LNode) : DiGraph :=
  (top.foldl (edgeTopStep cfg m) (Ctx.init, g)).2

/-- The raw graph of a construction: `add_nodes` then `add_edges` on an
initially empty `DiGraph`. -/
def buildRawGraph (cfg : Cfg) (top : List LNode) : DiGraph :=
  add_edges cfg (add_nodes cfg top) DiGraph.empty top

/-- The full pipeline of `__init__` after path validation: build the raw
graph, then prune. -/
def construct (cfg : Cfg) (threshold : Int) (top : List LNode) : DiGraph :=
  remove_lightly_connected_nodes (buildRawGraph cfg top) threshold

/-- The two facts about the target path that `verify_tex_path` queries:
whether `Path(file_path).exists()` and what `Path(file_path).suffix` is. -/
structure PathInfo where
  pathExists : Bool
  suffix : String
deriving DecidableEq, Repr

/-- The two exceptions `verify_tex_path` can raise. -/
inductive InputError where
  | fileNotFound
  | notATexFile
deriving DecidableEq, Repr

/-- `verify_tex_path`: `FileNotFoundError` for a missing path, `ValueError`
for a suffix other than `.tex`. -/
def verify_tex_path (p : PathInfo) : Except InputError Unit :=
  if !p.pathExists then .error .fileNotFound
  else if p.suffix ≠ ".tex" then .error .notATexFile
  else .ok ()

/-- `__init__`: validate the path first; only on success parse and build. -/
def constructChecked (p : PathInfo) (cfg : Cfg) (threshold : Int) (top : List LNode) :
    Except InputError DiGraph :=
  match verify_tex_path p with
  | .error e => .error e
  | .ok _ => .ok (construct cfg threshold top)

/-! ## Helper lemmas -/

theorem truthy_some_of_ne {s : String} (h : s ≠ "") : truthy (some s) = true := by
  simp [truthy, h]

theorem edgeCtxStep_of_ref (cfg : Cfg) (c : Ctx) (name arg : String)
    (h : name ∈ refNames) : edgeCtxStep cfg c name arg = c := by
  simp only [refNames, List.mem_cons, List.mem_singleton, List.not_mem_nil, or_false] at h
  rcases h with h | h | h | h | h | h <;> subst h <;> simp [edgeCtxStep]

theorem edges_subset_edgeStep (cfg : Cfg) (m : LabelMap) (st : Ctx × DiGraph)
    (n : LNode) : st.2.edges ⊆ (edgeStep cfg m st n).2.edges := by
  cases n with
  | cmd name arg =>
    simp only [edgeStep]
    split
    · split
      · exact Finset.Subset.refl _
      · split
        · exact Finset.Subset.refl _
        · split
          · exact Finset.subset_insert _ _
          · exact Finset.Subset.refl _
    · exact Finset.Subset.refl _
  | env name children => exact Finset.Subset.refl _
  | text s => exact Finset.Subset.refl _

theorem edges_subset_edgeFold (cfg : Cfg) (m : LabelMap) :
    ∀ (body : List LNode) (st : Ctx × DiGraph),
      st.2.edges ⊆ (List.foldl (edgeStep cfg m) st body).2.edges := by
  intro body
  induction body with
  | nil => intro st; exact Finset.Subset.refl _
  | cons n rest ih =>
    intro st
    exact (edges_subset_edgeStep cfg m st n).trans (ih (edgeStep cfg m st n))

theorem no_self_loop_edgeStep (cfg : Cfg) (m : LabelMap) (st : Ctx × DiGraph)
    (n : LNode) (h : ∀ v, (v, v) ∉ st.2.edges) :
    ∀ v, (v, v) ∉ (edgeStep cfg m st n).2.edges := by
  cases n with
  | cmd name arg =>
    simp only [edgeStep]
    split
    · split
      · exact h
      · split
        · exact h
        · split
          · next hne =>
            intro v hv
            simp only [addEdge, Finset.mem_insert, Prod.mk.injEq] at hv
            rcases hv with ⟨h1, h2⟩ | hv
            · exact hne (h2.symm.trans h1)
            · exact h v hv
          · exact h
    · exact h
  | env name children => exact h
  | text s => exact h

theorem no_self_loop_edgeFold (cfg : Cfg) (m : LabelMap) :
    ∀ (body : List LNode) (st : Ctx × DiGraph),
      (∀ v, (v, v) ∉ st.2.edges) →
      ∀ v, (v, v) ∉ (List.foldl (edgeStep cfg m) st body).2.edges := by
  intro body
  induction body with
  | nil => intro st h; exact h
  | cons n rest ih =>
    intro st h
    exact ih (edgeStep cfg m st n) (no_self_loop_edgeStep cfg m st n h)

theorem no_self_loop_edgeTop (cfg : Cfg) (m : LabelMap) :
    ∀ (top : List LNode) (st : Ctx × DiGraph),
      (∀ v, (v, v) ∉ st.2.edges) →
      ∀ v, (v, v) ∉ (List.foldl (edgeTopStep cfg m) st top).2.edges := by
  intro top
  induction top with
  | nil => intro st h; exact h
  | cons n rest ih =>
    intro st h
    refine ih (edgeTopStep cfg m st n) ?_
    cases n with
    | cmd name arg => exact h
    | text s => exact h
    | env name body =>
      simp only [edgeTopStep]
      split
      · exact no_self_loop_edgeFold cfg m body st h
      · exact h

/-! ## Claim theorems -/

/-- C6: no self-loop is ever present, neither in the raw graph produced by
`add_nodes`/`add_edges` nor in the pruned graph produced by `construct`:
the guard `src ≠ target` in `add_edges` means no edge of the form `(u, u)`
is ever inserted, and pruning only removes edges. -/
theorem no_self_loops (cfg : Cfg) (threshold : Int) (top : List LNode) (u : String) :
    (u, u) ∉ (buildRawGraph cfg top).edges ∧
    (u, u) ∉ (construct cfg threshold top).edges := by
  have hraw : ∀ v, (v, v) ∉ (buildRawGraph cfg top).edges := by
    intro v
    unfold buildRawGraph add_edges
    exact no_self_loop_edgeTop cfg (add_nodes cfg top) top (Ctx.init, DiGraph.empty)
      (fun w => Finset.not_mem_empty _) v
  refine ⟨hraw u, ?_⟩
  intro hv
  simp only [construct, remove_lightly_connected_nodes, Finset.mem_filter] at hv
  exact hraw u hv.1

/-- C7: pruning is monotonic in its threshold: every node surviving
`remove_lightly_connected_nodes` at threshold `k + 1` also survives it at
threshold `k`. -/
theorem prune_threshold_monotone (g : DiGraph) (k : Int) :
    (remove_lightly_connected_nodes g (k + 1)).nodes ⊆
      (remove_lightly_connected_nodes g k).nodes := by
  intro n hn
  simp only [remove_lightly_connected_nodes, Finset.mem_sdiff, Finset.mem_filter,
    not_and, not_lt] at hn ⊢
  exact ⟨hn.1, fun hmem => le_trans (by omega) (hn.2 hmem)⟩

/-- C4: `remove_lightly_connected_nodes` removes exactly the nodes whose
total degree on the raw graph, computed before any removal, is strictly
below the threshold, together with the edges incident to a removed node;
surviving nodes and edges are characterised by the degrees of the input
graph alone (single batch, no cascading re-evaluation). -/
theorem prune_batch_spec (g : DiGraph) (t : Int)
    (hwf : ∀ e ∈ g.edges, e.1 ∈ g.nodes ∧ e.2 ∈ g.nodes) :
    (∀ n, n ∈ (remove_lightly_connected_nodes g t).nodes ↔
       n ∈ g.nodes ∧ t ≤ (degree g n : Int)) ∧
    (∀ e, e ∈ (remove_lightly_connected_nodes g t).edges ↔
       e ∈ g.edges ∧ t ≤ (degree g e.1 : Int) ∧ t ≤ (degree g e.2 : Int)) := by
  constructor
  · intro n
    simp only [remove_lightly_connected_nodes, Finset.mem_sdiff, Finset.mem_filter,
      not_and, not_lt]
    constructor
    · rintro ⟨hn, h⟩; exact ⟨hn, h hn⟩
    · rintro ⟨hn, h⟩; exact ⟨hn, fun _ => h⟩
  · intro e
    simp only [remove_lightly_connected_nodes, Finset.mem_filter, Finset.mem_sdiff,
      not_and, not_lt]
    constructor
    · rintro ⟨he, h1, h2⟩
      exact ⟨he, h1 (hwf e he).1, h2 (hwf e he).2⟩
    · rintro ⟨he, h1, h2⟩
      exact ⟨he, fun _ => h1, fun _ => h2⟩

/-- Witness for `prune_batch_spec` on the concrete graph with nodes
`{"a", "b"}` and single edge `("a", "b")` at threshold 1. -/
theorem prune_batch_spec_witness :
    (∀ n, n ∈ (remove_lightly_connected_nodes ⟨{"a", "b"}, {("a", "b")}⟩ 1).nodes ↔
       n ∈ (⟨{"a", "b"}, {("a", "b")}⟩ : DiGraph).nodes ∧
         (1 : Int) ≤ (degree ⟨{"a", "b"}, {("a", "b")}⟩ n : Int)) ∧
    (∀ e, e ∈ (remove_lightly_connected_nodes ⟨{"a", "b"}, {("a", "b")}⟩ 1).edges ↔
       e ∈ (⟨{"a", "b"}, {("a", "b")}⟩ : DiGraph).edges ∧
         (1 : Int) ≤ (degree ⟨{"a", "b"}, {("a", "b")}⟩ e.1 : Int) ∧
         (1 : Int) ≤ (degree ⟨{"a", "b"}, {("a", "b")}⟩ e.2 : Int)) :=
  prune_batch_spec ⟨{"a", "b"}, {("a", "b")}⟩ 1 (by decide)

/-- A document whose last reference sits inside an `equation` environment:
`\section{A}\label{sA}` then `\section{B}` whose `equation` contains
`\ref{sA}`. -/
def mathRefDoc : List LNode :=
  [.env "document" [.cmd "section" "A", .cmd "label" "sA",
    .cmd "section" "B", .env "equation" [.cmd "ref" "sA"]]]

/-- C2 counterexample: in `mathRefDoc` the identifier `sA` is in the label
map (mapped to unit `A`) and the context at the math environment is the
distinct unit `B`, yet the raw graph has no edge at all — the reference
inside the `equation` environment is not processed like a reference
directly in the body, which would have produced the edge `("A", "B")`. -/
theorem mathenv_ref_counterexample :
    mapLookup (add_nodes ⟨false, true⟩ mathRefDoc) "sA" = some "A" ∧
    (buildRawGraph ⟨false, true⟩ mathRefDoc).edges = ∅ ∧
    (buildRawGraph ⟨false, true⟩
      [.env "document" [.cmd "section" "A", .cmd "label" "sA",
        .cmd "section" "B", .cmd "ref" "sA"]]).edges = {("A", "B")} := by
  refine ⟨by decide, by decide, by decide⟩

/-- C2 amended: the reference-linking pass skips every environment node
nested in the document body without looking inside, so a reference command
inside a math environment is ignored and adds no edge; only reference
commands appearing directly in the body are linked. -/
theorem mathenv_ref_skipped (cfg : Cfg) (m : LabelMap) (st : Ctx × DiGraph)
    (name : String) (children : List LNode) :
    edgeStep cfg m st (.env name children) = st := rfl

/-- C9: a reference command whose identifier is absent from the label map
leaves the reference-linking state (context and graph) unchanged, and the
whole pass over a body containing such a dangling reference produces the
same state as the pass over the body with that reference removed. The
function is total, so no error is raised. -/
theorem dangling_ref_ignored (cfg : Cfg) (m : LabelMap) (r l : String)
    (hr : r ∈ refNames) (hm : mapLookup m l = none) :
    (∀ st : Ctx × DiGraph, edgeStep cfg m st (.cmd r l) = st) ∧
    (∀ (xs ys : List LNode) (st : Ctx × DiGraph),
      List.foldl (edgeStep cfg m) st (xs ++ .cmd r l :: ys) =
        List.foldl (edgeStep cfg m) st (xs ++ ys)) := by
  have hstep : ∀ st : Ctx × DiGraph, edgeStep cfg m st (.cmd r l) = st := by
    intro st
    simp only [edgeStep, edgeCtxStep_of_ref cfg st.1 r l hr, if_pos hr, hm]
  refine ⟨hstep, ?_⟩
  intro xs ys st
  rw [List.foldl_append, List.foldl_append, List.foldl_cons, hstep]

/-- Witness for `dangling_ref_ignored`: the command `\ref{missing}` under
the empty label map, spliced between a section heading and nothing. -/
theorem dangling_ref_ignored_witness :
    (∀ st : Ctx × DiGraph, edgeStep ⟨false, true⟩ [] st (.cmd "ref" "missing") = st) ∧
    (∀ (xs ys : List LNode) (st : Ctx × DiGraph),
      List.foldl (edgeStep ⟨false, true⟩ []) st (xs ++ .cmd "ref" "missing" :: ys) =
        List.foldl (edgeStep ⟨false, true⟩ []) st (xs ++ ys)) :=
  dangling_ref_ignored ⟨false, true⟩ [] "ref" "missing" (by decide) rfl

/-- C10: with `use_subsection = False` and `use_subsubsection = True`, the
linking pass leaves its whole state — in particular the tracked
subsubsection — unchanged on a `subsection` command, while a `section`
command clears the subsubsection slot; consequently a reference right
after such a subsection heading is still attributed to the most recent
earlier subsubsection `x` as its source unit. -/
theorem subsection_keeps_subsubsection (m : LabelMap) (c : Ctx) (g : DiGraph)
    (title x : String) (hsub : c.prevSubsubsection = some x) :
    edgeStep ⟨true, false⟩ m (c, g) (.cmd "subsection" title) = (c, g) ∧
    (∀ t2 arg2, (edgeCtxStep ⟨true, false⟩ c t2 arg2).prevSubsubsection =
        (if t2 = "section" then none
         else if t2 = "subsubsection" then some arg2
         else c.prevSubsubsection)) ∧
    (x ≠ "" → ∀ l target, mapLookup m l = some target → target ≠ x →
      (edgeBody ⟨true, false⟩ m (c, g) [.cmd "subsection" title, .cmd "ref" l]).2 =
        addEdge g target x) := by
  have hstep : edgeStep ⟨true, false⟩ m (c, g) (.cmd "subsection" title) = (c, g) := by
    simp [edgeStep, edgeCtxStep, refNames]
  refine ⟨hstep, ?_, ?_⟩
  · intro t2 arg2
    simp only [edgeCtxStep]
    split_ifs with h1 h2 h3 h4 h5 <;> simp_all
  · intro hx l target hml htne
    simp only [edgeBody, List.foldl_cons, List.foldl_nil, hstep]
    have hres : resolveCtx c = some x := by
      simp [resolveCtx, hsub, truthy_some_of_ne hx]
    simp [edgeStep, edgeCtxStep_of_ref ⟨true, false⟩ c "ref" l (by decide),
      refNames, hml, hres, Ne.symm htne]

/-- Witness for `subsection_keeps_subsubsection`: context with current
subsubsection `X`, label map sending `l1` to `T`. -/
theorem subsection_keeps_subsubsection_witness :
    edgeStep ⟨true, false⟩ [("l1", "T")] (⟨some "B", none, some "X"⟩, DiGraph.empty)
        (.cmd "subsection" "Y") = (⟨some "B", none, some "X"⟩, DiGraph.empty) ∧
    (edgeBody ⟨true, false⟩ [("l1", "T")] (⟨some "B", none, some "X"⟩, DiGraph.empty)
        [.cmd "subsection" "Y", .cmd "ref" "l1"]).2 = addEdge DiGraph.empty "T" "X" := by
  have h := subsection_keeps_subsubsection [("l1", "T")] ⟨some "B", none, some "X"⟩
    DiGraph.empty "Y" "X" rfl
  exact ⟨h.1, h.2.2 (by decide) "l1" "T" (by decide) (by decide)⟩

/-- The spec scenario for the reference linker: `\section{A}\label{sA}`,
then `\section{B}` containing `\ref{sA}`, then `\section{C}` containing
`\ref{sA}`. -/
def scenarioDoc : List LNode :=
  [.env "document" [.cmd "section" "A", .cmd "label" "sA",
    .cmd "section" "B", .cmd "ref" "sA", .cmd "section" "C", .cmd "ref" "sA"]]

theorem edgeStep_ref_adds (cfg : Cfg) (m : LabelMap) (st : Ctx × DiGraph)
    (r l target src : String) (hr : r ∈ refNames) (hm : mapLookup m l = some target)
    (hres : resolveCtx st.1 = some src) (hne : src ≠ target) :
    edgeStep cfg m st (.cmd r l) = (st.1, addEdge st.2 target src) := by
  simp only [edgeStep, edgeCtxStep_of_ref cfg st.1 r l hr, if_pos hr, hm, hres,
    if_pos hne]

/-- C1: whenever the reference linker meets, anywhere in the document body,
a reference command `r` (any of the six recognised kinds) whose identifier
`l` the label map sends to `target`, and the context accumulated over the
preceding body prefix resolves to a non-empty unit `src ≠ target`, the
edge `(target, src)` is in the raw graph produced by `add_edges`; and on
the spec scenario with threshold 1 the final graph is exactly nodes
`{A, B, C}` with edges `{A → B, A → C}`. -/
theorem add_edges_adds_resolved_edge :
    (∀ (cfg : Cfg) (m : LabelMap) (g0 : DiGraph) (xs ys : List LNode)
        (r l target src : String),
      r ∈ refNames → mapLookup m l = some target →
      resolveCtx (List.foldl (edgeStep cfg m) (Ctx.init, g0) xs).1 = some src →
      src ≠ target →
      (target, src) ∈
        (add_edges cfg m g0 [.env "document" (xs ++ .cmd r l :: ys)]).edges) ∧
    (construct ⟨false, true⟩ 1 scenarioDoc).nodes = {"A", "B", "C"} ∧
    (construct ⟨false, true⟩ 1 scenarioDoc).edges = {("A", "B"), ("A", "C")} := by
  refine ⟨?_, by decide, by decide⟩
  intro cfg m g0 xs ys r l target src hr hm hres hne
  simp only [add_edges, List.foldl_cons, List.foldl_nil, edgeTopStep, if_pos rfl,
    edgeBody]
  rw [List.foldl_append, List.foldl_cons,
    edgeStep_ref_adds cfg m _ r l target src hr hm hres hne]
  exact edges_subset_edgeFold cfg m ys _ (Finset.mem_insert_self _ _)

/-- Witness for the universally quantified part of
`add_edges_adds_resolved_edge`: document body `\section{U}\ref{k}` with
label map sending `k` to `T`. -/
theorem add_edges_adds_resolved_edge_witness :
    ("T", "U") ∈ (add_edges ⟨false, true⟩ [("k", "T")] DiGraph.empty
      [.env "document" [.cmd "section" "U", .cmd "ref" "k"]]).edges :=
  add_edges_adds_resolved_edge.1 ⟨false, true⟩ [("k", "T")] DiGraph.empty
    [.cmd "section" "U"] [] "ref" "k" "T" "U" (by decide) (by decide) (by decide)
    (by decide)

theorem foldl_fixed {α β : Type} (f : α → β → α) (x : β) (st : α) (h : f st x = st) :
    ∀ n, List.foldl f st (List.replicate n x) = st := by
  intro n
  induction n with
  | zero => rfl
  | succ k ih => rw [List.replicate_succ, List.foldl_cons, h]; exact ih

/-- A document with an anchor `A` in section `U1` and `n` repeated
references to it from section `U2`. -/
def repeatedRefDoc (U1 U2 A : String) (n : Nat) : List LNode :=
  [.env "document" ([.cmd "section" U1, .cmd "label" A, .cmd "section" U2] ++
    List.replicate n (.cmd "ref" A))]

theorem labelStep_ref (cfg : Cfg) (st : Ctx × LabelMap) (A : String) :
    labelStep cfg st (.cmd "ref" A) = st := by
  simp [labelStep]

theorem add_nodes_repeatedRefDoc (cfg : Cfg) (U1 U2 A : String) (n : Nat)
    (hU1 : U1 ≠ "") : add_nodes cfg (repeatedRefDoc U1 U2 A n) = [(A, U1)] := by
  have h3 : List.foldl (labelStep cfg) (Ctx.init, [])
      [.cmd "section" U1, .cmd "label" A, .cmd "section" U2] =
      (⟨some U2, none, none⟩, [(A, U1)]) := by
    simp [labelStep, recordLabel, truthy, hU1, Ctx.init]
  simp only [add_nodes, repeatedRefDoc, List.foldl_cons, List.foldl_nil, labelTopStep,
    labelBody, if_true]
  rw [List.foldl_append, h3,
    foldl_fixed _ _ _ (labelStep_ref cfg (⟨some U2, none, none⟩, [(A, U1)]) A)]

theorem edge_sections_fold (cfg : Cfg) (m : LabelMap) (g0 : DiGraph)
    (U1 U2 A : String) :
    List.foldl (edgeStep cfg m) (Ctx.init, g0)
      [.cmd "section" U1, .cmd "label" A, .cmd "section" U2] =
      (⟨some U2, none, none⟩, g0) := by
  simp [edgeStep, edgeCtxStep, refNames, Ctx.init]

theorem edge_ref_fix (cfg : Cfg) (U1 U2 A : String) (hU2 : U2 ≠ "")
    (hne : U1 ≠ U2) (G : DiGraph) :
    edgeStep cfg [(A, U1)] (⟨some U2, none, none⟩, G) (.cmd "ref" A) =
      (⟨some U2, none, none⟩, addEdge G U1 U2) :=
  edgeStep_ref_adds cfg [(A, U1)] (⟨some U2, none, none⟩, G) "ref" A U1 U2
    (by decide) (by simp [mapLookup]) (by simp [resolveCtx, truthy, hU2])
    (Ne.symm hne)

/-- C5: `add_edge` is idempotent on the graph model, and for the document
with an anchor `A` in unit `U1` and `n ≥ 1` repeated references to it from
a distinct unit `U2`, the raw (pre-pruning) graph contains exactly the one
edge `(U1, U2)`, however large `n` is — no multi-edges, no weights. -/
theorem edge_insertion_idempotent :
    (∀ (g : DiGraph) (u v : String), addEdge (addEdge g u v) u v = addEdge g u v) ∧
    (∀ (cfg : Cfg) (U1 U2 A : String) (n : Nat),
      U1 ≠ "" → U2 ≠ "" → U1 ≠ U2 → 1 ≤ n →
      (buildRawGraph cfg (repeatedRefDoc U1 U2 A n)).edges = {(U1, U2)}) := by
  have hidem : ∀ (g : DiGraph) (u v : String),
      addEdge (addEdge g u v) u v = addEdge g u v := by
    intro g u v
    simp only [addEdge, DiGraph.mk.injEq]
    constructor
    · ext a; simp [Finset.mem_insert]
    · rw [Finset.insert_idem]
  refine ⟨hidem, ?_⟩
  intro cfg U1 U2 A n hU1 hU2 hne hn
  obtain ⟨k, rfl⟩ : ∃ k, n = k + 1 := ⟨n - 1, by omega⟩
  have hfix : edgeStep cfg [(A, U1)] (⟨some U2, none, none⟩,
      addEdge DiGraph.empty U1 U2) (.cmd "ref" A) =
      (⟨some U2, none, none⟩, addEdge DiGraph.empty U1 U2) := by
    rw [edge_ref_fix cfg U1 U2 A hU2 hne (addEdge DiGraph.empty U1 U2),
      hidem DiGraph.empty U1 U2]
  unfold buildRawGraph
  rw [add_nodes_repeatedRefDoc cfg U1 U2 A (k + 1) hU1]
  simp only [add_edges, repeatedRefDoc, List.foldl_cons, List.foldl_nil, edgeTopStep,
    edgeBody, if_true]
  rw [List.foldl_append, edge_sections_fold cfg [(A, U1)] DiGraph.empty
    U1 U2 A, List.replicate_succ, List.foldl_cons,
    edge_ref_fix cfg U1 U2 A hU2 hne DiGraph.empty, foldl_fixed _ _ _ hfix]
  simp [addEdge, DiGraph.empty]

/-- Witness for `edge_insertion_idempotent`: anchor in `"U1"`, three
references from `"U2"`, yielding the single edge `("U1", "U2")`. -/
theorem edge_insertion_idempotent_witness :
    (buildRawGraph ⟨false, true⟩ (repeatedRefDoc "U1" "U2" "a" 3)).edges =
      {("U1", "U2")} :=
  edge_insertion_idempotent.2 ⟨false, true⟩ "U1" "U2" "a" 3 (by decide) (by decide)
    (by decide) (by decide)

/-- A body node that is neither a `subsection` nor a `subsubsection`
command. -/
def noMidLevelCmd : LNode → Bool
  | .cmd name _ => !(name == "subsection" || name == "subsubsection")
  | _ => true

/-- A top-level node whose body (when it is an environment) contains no
`subsection` or `subsubsection` command. -/
def bodyNoMidLevels : LNode → Bool
  | .env _ body => body.all noMidLevelCmd
  | _ => true

/-- C3 counterexample: on the document `\section{S}\subsection{T}\label{l}`
the label map depends on the granularity flags — with `use_subsection`
enabled the label resolves to `T`, with it disabled to `S` — so label
resolution does not yield equal mappings for every configuration. -/
theorem label_map_config_counterexample :
    mapLookup (add_nodes ⟨false, true⟩
      [.env "document" [.cmd "section" "S", .cmd "subsection" "T", .cmd "label" "l"]])
        "l" ≠
    mapLookup (add_nodes ⟨false, false⟩
      [.env "document" [.cmd "section" "S", .cmd "subsection" "T", .cmd "label" "l"]])
        "l" := by decide

theorem recordLabel_flag_indep (cfg₁ cfg₂ : Cfg) (c : Ctx) (m : LabelMap)
    (l : String) (h2 : c.prevSubsection = none) (h3 : c.prevSubsubsection = none) :
    recordLabel cfg₁ c m l = recordLabel cfg₂ c m l := by
  simp [recordLabel, h2, h3, truthy]

theorem scanMathLabels_flag_indep (cfg₁ cfg₂ : Cfg) (c : Ctx)
    (h2 : c.prevSubsection = none) (h3 : c.prevSubsubsection = none) :
    ∀ (children : List LNode) (m : LabelMap),
      scanMathLabels cfg₁ c m children = scanMathLabels cfg₂ c m children := by
  intro children
  induction children with
  | nil => intro m; rfl
  | cons n rest ih =>
    intro m
    cases n with
    | cmd name arg =>
      simp only [scanMathLabels]
      by_cases hname : name = "label"
      · rw [if_pos hname, if_pos hname,
          recordLabel_flag_indep cfg₁ cfg₂ c m arg h2 h3]
        exact ih _
      · rw [if_neg hname, if_neg hname]; exact ih m
    | env name children2 => simp only [scanMathLabels]; exact ih m
    | text s => simp only [scanMathLabels]; exact ih m

theorem labelFold_flag_indep (cfg₁ cfg₂ : Cfg) :
    ∀ (body : List LNode) (st : Ctx × LabelMap),
      st.1.prevSubsection = none → st.1.prevSubsubsection = none →
      body.all noMidLevelCmd = true →
      List.foldl (labelStep cfg₁) st body = List.foldl (labelStep cfg₂) st body ∧
      (List.foldl (labelStep cfg₁) st body).1.prevSubsection = none ∧
      (List.foldl (labelStep cfg₁) st body).1.prevSubsubsection = none := by
  intro body
  induction body with
  | nil => intro st h2 h3 _; exact ⟨rfl, h2, h3⟩
  | cons n rest ih =>
    intro st h2 h3 hall
    simp only [List.all_cons, Bool.and_eq_true] at hall
    obtain ⟨hn, hrest⟩ := hall
    rw [List.foldl_cons, List.foldl_cons]
    cases n with
    | text s => exact ih st h2 h3 hrest
    | env name children =>
      by_cases henv : name = "equation" ∨ name = "align"
      · have e1 : labelStep cfg₁ st (.env name children) =
            (st.1, scanMathLabels cfg₁ st.1 st.2 children) := by
          simp [labelStep, henv]
        have e2 : labelStep cfg₂ st (.env name children) =
            (st.1, scanMathLabels cfg₂ st.1 st.2 children) := by
          simp [labelStep, henv]
        rw [e1, e2, scanMathLabels_flag_indep cfg₁ cfg₂ st.1 h2 h3 children st.2]
        exact ih _ h2 h3 hrest
      · have e1 : labelStep cfg₁ st (.env name children) = st := by
          simp [labelStep, henv]
        have e2 : labelStep cfg₂ st (.env name children) = st := by
          simp [labelStep, henv]
        rw [e1, e2]
        exact ih st h2 h3 hrest
    | cmd name arg =>
      simp only [noMidLevelCmd, Bool.not_eq_true', Bool.or_eq_false_iff,
        beq_eq_false_iff_ne, ne_eq] at hn
      obtain ⟨hn1, hn2⟩ := hn
      by_cases hsec : name = "section"
      · have e1 : labelStep cfg₁ st (.cmd name arg) = (⟨some arg, none, none⟩, st.2) := by
          simp [labelStep, hsec]
        have e2 : labelStep cfg₂ st (.cmd name arg) = (⟨some arg, none, none⟩, st.2) := by
          simp [labelStep, hsec]
        rw [e1, e2]
        exact ih _ rfl rfl hrest
      · by_cases hlab : name = "label"
        · have e1 : labelStep cfg₁ st (.cmd name arg) =
              (st.1, recordLabel cfg₁ st.1 st.2 arg) := by
            simp [labelStep, hsec, hn1, hn2, hlab]
          have e2 : labelStep cfg₂ st (.cmd name arg) =
              (st.1, recordLabel cfg₂ st.1 st.2 arg) := by
            simp [labelStep, hsec, hn1, hn2, hlab]
          rw [e1, e2, recordLabel_flag_indep cfg₁ cfg₂ st.1 st.2 arg h2 h3]
          exact ih _ h2 h3 hrest
        · have e1 : labelStep cfg₁ st (.cmd name arg) = st := by
            simp [labelStep, hsec, hn1, hn2, hlab]
          have e2 : labelStep cfg₂ st (.cmd name arg) = st := by
            simp [labelStep, hsec, hn1, hn2, hlab]
          rw [e1, e2]
          exact ih st h2 h3 hrest

theorem labelTopFold_flag_indep (cfg₁ cfg₂ : Cfg) :
    ∀ (top : List LNode) (st : Ctx × LabelMap),
      st.1.prevSubsection = none → st.1.prevSubsubsection = none →
      top.all bodyNoMidLevels = true →
      List.foldl (labelTopStep cfg₁) st top = List.foldl (labelTopStep cfg₂) st top := by
  intro top
  induction top with
  | nil => intro st _ _ _; rfl
  | cons n rest ih =>
    intro st h2 h3 hall
    simp only [List.all_cons, Bool.and_eq_true] at hall
    obtain ⟨hn, hrest⟩ := hall
    rw [List.foldl_cons, List.foldl_cons]
    cases n with
    | text s => exact ih st h2 h3 hrest
    | cmd name arg => exact ih st h2 h3 hrest
    | env name body =>
      have hbody : body.all noMidLevelCmd = true := hn
      by_cases hd : name = "document"
      · have e1 : labelTopStep cfg₁ st (.env name body) =
            List.foldl (labelStep cfg₁) st body := by
          simp [labelTopStep, labelBody, hd]
        have e2 : labelTopStep cfg₂ st (.env name body) =
            List.foldl (labelStep cfg₂) st body := by
          simp [labelTopStep, labelBody, hd]
        obtain ⟨heq, hi2, hi3⟩ := labelFold_flag_indep cfg₁ cfg₂ body st h2 h3 hbody
        rw [e1, e2, ← heq]
        exact ih _ hi2 hi3 hrest
      · have e1 : labelTopStep cfg₁ st (.env name body) = st := by
          simp [labelTopStep, hd]
        have e2 : labelTopStep cfg₂ st (.env name body) = st := by
          simp [labelTopStep, hd]
        rw [e1, e2]
        exact ih st h2 h3 hrest

/-- C3 amended: the label-resolution pass always tracks subsection and
subsubsection context regardless of the flags, but resolves each label
through the flags, so label maps for different configurations can differ
(see the counterexample); they are guaranteed equal whenever the document
body contains no `subsection` or `subsubsection` command. -/
theorem label_map_flag_indep_without_midlevels (cfg₁ cfg₂ : Cfg) (top : List LNode)
    (h : top.all bodyNoMidLevels = true) :
    add_nodes cfg₁ top = add_nodes cfg₂ top := by
  unfold add_nodes
  rw [labelTopFold_flag_indep cfg₁ cfg₂ top (Ctx.init, []) rfl rfl h]

/-- Witness for `label_map_flag_indep_without_midlevels` on a document
with sections only. -/
theorem label_map_flag_indep_witness :
    ([.env "document" [.cmd "section" "A", .cmd "label" "x",
        .cmd "section" "B"]] : List LNode).all bodyNoMidLevels = true ∧
    add_nodes ⟨true, true⟩
        [.env "document" [.cmd "section" "A", .cmd "label" "x", .cmd "section" "B"]] =
      add_nodes ⟨false, false⟩
        [.env "document" [.cmd "section" "A", .cmd "label" "x", .cmd "section" "B"]] :=
  ⟨by decide, label_map_flag_indep_without_midlevels ⟨true, true⟩ ⟨false, false⟩ _
    (by decide)⟩

/-- C8: the checked construction fails with an input-validation error if
and only if the path does not exist or its suffix is not `.tex`; the
check precedes the traversal, so on invalid input the outcome does not
depend on the parsed document at all — the construction is aborted with
no graph built. -/
theorem input_validation_spec (p : PathInfo) (cfg : Cfg) (t : Int) (top : List LNode) :
    ((∃ e, constructChecked p cfg t top = .error e) ↔
      ¬(p.pathExists = true ∧ p.suffix = ".tex")) ∧
    (∀ top2, ¬(p.pathExists = true ∧ p.suffix = ".tex") →
      constructChecked p cfg t top = constructChecked p cfg t top2) := by
  obtain ⟨pe, suf⟩ := p
  constructor
  · cases pe
    · simp [constructChecked, verify_tex_path]
    · by_cases hs : suf = ".tex" <;> simp [constructChecked, verify_tex_path, hs]
  · intro top2 h
    cases pe
    · simp [constructChecked, verify_tex_path]
    · have hs : suf ≠ ".tex" := by simpa using h
      simp [constructChecked, verify_tex_path, hs]

/-- Witness for `input_validation_spec`: a missing path with the right
suffix is rejected independently of the document. -/
theorem input_validation_spec_witness :
    ((∃ e, constructChecked ⟨false, ".tex"⟩ ⟨false, true⟩ 2 [] = .error e) ↔
      ¬((false : Bool) = true ∧ ".tex" = ".tex")) ∧
    constructChecked ⟨false, ".tex"⟩ ⟨false, true⟩ 2 [] =
      constructChecked ⟨false, ".tex"⟩ ⟨false, true⟩ 2
        [.env "document" [.cmd "section" "A"]] := by
  have h := input_validation_spec ⟨false, ".tex"⟩ ⟨false, true⟩ 2 []
  exact ⟨h.1, h.2 [.env "document" [.cmd "section" "A"]] (by simp)⟩

end LatexSectionsGraph
